import Mathlib

/-!
Verification of the manuscript compiler (scripts/compile_manuscript.py and
scripts/word_count.py).  The Python code is shallowly embedded: strings are
Lean Strings (lists of Chars), file trees are explicit snapshots, and each
Python function is translated to an executable Lean definition.  Loops whose
index can skip ahead are modelled with an explicit step function plus a fuel
bound; termination within the fuel bound is proved separately.

Modelling notes, stated once here:
  - Python str.strip() removes Unicode whitespace; the embedding covers the
    ASCII whitespace characters (space, tab, newline, carriage return,
    vertical tab, form feed), which is faithful for all inputs made of
    ordinary text.
  - Python str.splitlines(True) additionally splits on rare control
    separators (\x1c-\x1e, \x85, U+2028, U+2029); the embedding covers
    the line endings \n, \r\n and \r.
  - The regex class \w under re.UNICODE covers Unicode letters and digits;
    the embedding covers ASCII letters, digits and underscore.
-/

/-- Whitespace set of Python str.strip and str.split with no argument. -/
def pyWs (c : Char) : Bool :=
  c = ' ' || c = '\t' || c = '\n' || c = '\r' || c = Char.ofNat 11 || c = Char.ofNat 12

/-- Remove trailing characters satisfying p (Python str.rstrip with a char set). -/
def rstripP (p : Char → Bool) (l : List Char) : List Char :=
  (l.reverse.dropWhile p).reverse

/-- Python str.strip() on a list of characters. -/
def pyStripL (l : List Char) : List Char :=
  rstripP pyWs (l.dropWhile pyWs)

/-- Python text.strip(). -/
def pyStrip (s : String) : String := ⟨pyStripL s.data⟩

/-- Python text.lstrip(). -/
def pyLstrip (s : String) : String := ⟨s.data.dropWhile pyWs⟩

/-- Python text.rstrip(). -/
def pyRstrip (s : String) : String := ⟨rstripP pyWs s.data⟩

/-- Python line.rstrip("\n\r") (used on the front-matter lines). -/
def rstripNLCR (s : String) : String := ⟨rstripP (fun c => c = '\n' || c = '\r') s.data⟩

/-- Python value.rstrip("\n") (used when committing a block scalar). -/
def rstripLF (s : String) : String := ⟨rstripP (fun c => c = '\n') s.data⟩

/-- Python line.lstrip("﻿") (byte-order-mark removal on the first line). -/
def stripBOM (s : String) : String := ⟨s.data.dropWhile (fun c => c = '﻿')⟩

/-- Python len(s) - len(s.lstrip(" ")): the count of leading spaces. -/
def indentation (s : String) : Nat := (s.data.takeWhile (fun c => c = ' ')).length

/-- Accumulator worker for splitlines(True); cur holds the current line reversed. -/
def splitGo (cur : List Char) : List Char → List (List Char)
  | [] => if cur.isEmpty then [] else [cur.reverse]
  | '\r' :: '\n' :: rest => (cur.reverse ++ ['\r', '\n']) :: splitGo [] rest
  | '\n' :: rest => (cur.reverse ++ ['\n']) :: splitGo [] rest
  | '\r' :: rest => (cur.reverse ++ ['\r']) :: splitGo [] rest
  | c :: rest => splitGo (c :: cur) rest

/-- Whether s ends with t (Python str.endswith, fnmatch suffix of *.md). -/
def strEndsWith (s t : String) : Bool := t.data.reverse.isPrefixOf s.data.reverse

/-- Python text.splitlines(True): lines with their terminators kept. -/
def splitlinesKeep (s : String) : List String := (splitGo [] s.data).map (fun l => ⟨l⟩)

/-- Python "".join(parts). -/
def joinAll : List String → String
  | [] => ""
  | x :: rest => x ++ joinAll rest

/-- Python "\n".join(parts). -/
def joinNL : List String → String
  | [] => ""
  | [x] => x
  | x :: y :: rest => x ++ "\n" ++ joinNL (y :: rest)

/-- Decimal digits of n, most significant first; fuel bounds the recursion. -/
def natDigitsAux : Nat → Nat → List Char
  | 0, _ => []
  | fuel + 1, n =>
    if n < 10 then [Char.ofNat (48 + n)]
    else natDigitsAux fuel (n / 10) ++ [Char.ofNat (48 + n % 10)]

/-- Decimal rendering of a Nat (Python str(n) for non-negative n). -/
def natToStr (n : Nat) : String := ⟨natDigitsAux (n + 1) n⟩

/-- Comma grouping worker on a reversed digit list: a comma after every third digit. -/
def group3 : List Char → List Char
  | a :: b :: c :: d :: t => a :: b :: c :: ',' :: group3 (d :: t)
  | l => l

/-- Python f-string formatting with thousands separators, f-spec {n:,}. -/
def commaFormat (n : Nat) : String := ⟨(group3 (natToStr n).data.reverse).reverse⟩

/-- Python int(round(n / 1000.0)) * 1000.  For n below 2^51 the float division
is exact at the tie points, so round is exactly round-half-to-even. -/
def nearestThousand (n : Nat) : Nat :=
  let q := n / 1000
  let r := n % 1000
  if 500 < r then (q + 1) * 1000
  else if r < 500 then q * 1000
  else if q % 2 = 0 then q * 1000 else (q + 1) * 1000

/-- Find the index of the first occurrence of pat in l (None when absent),
the position semantics of re/str.find used to express where content lands. -/
def strFindL (pat : List Char) : List Char → Option Nat
  | [] => if pat.isEmpty then some 0 else none
  | c :: rest =>
    if pat.isPrefixOf (c :: rest) then some 0
    else (strFindL pat rest).map (· + 1)

/-- Index of the first occurrence of pat inside s. -/
def strFind (s pat : String) : Option Nat := strFindL pat.data s.data

/-- Whether pat occurs inside s. -/
def hasSubstr (s pat : String) : Bool := (strFind s pat).isSome

/-- Whether, inside doc, the first occurrence of a sits before the first
occurrence of b (both must occur). -/
def placedBefore (doc a b : String) : Bool :=
  match strFind doc a, strFind doc b with
  | some i, some j => decide (i < j)
  | _, _ => false

/-! ## Front matter: strip_yaml_front_matter

The function is textually identical in compile_manuscript.py (lines 45-65)
and word_count.py (lines 50-66); it is defined once. -/

/-- Search lines for the first one whose strip() is a closing delimiter,
returning its index (the loop at compile_manuscript.py lines 59-62). -/
def findCloseIdx : List String → Option Nat
  | [] => none
  | l :: rest =>
    if pyStrip l = "---" || pyStrip l = "..." then some 0
    else (findCloseIdx rest).map (· + 1)

/-- compile_manuscript.py strip_yaml_front_matter: drop a leading YAML block
delimited by --- and --- or ...; on any irregularity return the text unchanged. -/
def strip_yaml_front_matter (text : String) : String :=
  if text = "" then text
  else
    let lines := splitlinesKeep text
    if lines = [] then text
    else if pyStrip (stripBOM (lines.headD "")) ≠ "---" then text
    else
      match findCloseIdx lines.tail with
      | none => text
      | some k => joinAll (lines.tail.drop (k + 1))

/-! ## Front matter: parse_front_matter (compile_manuscript.py lines 68-224)

The scan over the lines between the delimiters is modelled by a step
function consuming the remaining line list.  In the Python loop the
variables key and mode are always None when the loop head is reached
(every branch either never set them or ends in commit_pending, which
resets them), so the guard (ind == 0 or key is None) is always true and
the blank-line branch for mode == 'block' is dead; the embedded step
function carries no key/mode state and treats any line whose stripped
form contains a colon as a key line. -/

/-- Parsed metadata values: scalars and block scalars are Python strings,
lists are Python lists of strings. -/
inductive MValue
  | str (s : String)
  | list (l : List String)
deriving DecidableEq

/-- Insertion-ordered string dictionary, as Python dict: assigning to an
existing key updates it in place, new keys append. -/
abbrev Meta := List (String × MValue)

/-- Python data.get(key). -/
def metaGet (d : Meta) (k : String) : Option MValue :=
  (d.find? (fun p => p.1 = k)).map Prod.snd

/-- Python data[key] = v. -/
def dictInsert (d : Meta) (k : String) (v : MValue) : Meta :=
  if d.any (fun p => p.1 = k) then
    d.map (fun p => if p.1 = k then (k, v) else p)
  else d ++ [(k, v)]

/-- Python stripped.split(":", 1): the part before the first colon and the
part after it (the colon itself dropped). -/
def splitColon : List Char → List Char × List Char
  | [] => ([], [])
  | c :: rest =>
    if c = ':' then ([], rest)
    else
      let p := splitColon rest
      (c :: p.1, p.2)

/-- Inner loop of the block-scalar branch (compile_manuscript.py lines
144-157): collect lines indented at least base (the first non-blank line
fixes base), dedenting each by base and keeping blank lines as empty
strings; return the collected lines and the unconsumed remainder. -/
def collectBlock (base : Option Nat) : List String → List String × List String
  | [] => ([], [])
  | ln :: rest =>
    if pyStrip ln = "" then
      let p := collectBlock base rest
      ("" :: p.1, p.2)
    else
      let indn := indentation ln
      match base with
      | none =>
        let p := collectBlock (some indn) rest
        (⟨ln.data.drop indn⟩ :: p.1, p.2)
      | some b =>
        if indn < b then ([], ln :: rest)
        else
          let p := collectBlock base rest
          (⟨ln.data.drop b⟩ :: p.1, p.2)

/-- First phase of the empty-value lookahead (lines 164-197): skip blank
lines; if the first non-blank line is deeper than ind and starts with a
dash-space item marker, return the item text and the remainder after it. -/
def findFirstItem (ind : Nat) : List String → Option (String × List String)
  | [] => none
  | ln :: rest =>
    if pyStrip ln = "" then findFirstItem ind rest
    else if indentation ln ≤ ind then none
    else
      match (pyStrip ln).data with
      | '-' :: ' ' :: s => some (pyStrip ⟨s⟩, rest)
      | _ => none

/-- Second phase of the list collection (lines 181-194): keep taking
dash-space items deeper than ind, skipping blank lines; stop at the first
line at or above ind or at a non-item line. -/
def collectMore (ind : Nat) : List String → List String × List String
  | [] => ([], [])
  | ln :: rest =>
    if pyStrip ln = "" then collectMore ind rest
    else if indentation ln ≤ ind then ([], ln :: rest)
    else
      match (pyStrip ln).data with
      | '-' :: ' ' :: s =>
        let p := collectMore ind rest
        (pyStrip ⟨s⟩ :: p.1, p.2)
      | _ => ([], ln :: rest)

/-- Whether the scalar is wrapped in one matching pair of quote characters
(line 211). -/
def quoteWrapped (v : String) : Bool :=
  match v.data.head?, v.data.getLast? with
  | some a, some b =>
    (a = '"' && b = '"') || (a = Char.ofNat 39 && b = Char.ofNat 39)
  | _, _ => false

/-- Result of one iteration of the parsing loop. -/
inductive StepRes
  | cont (rest : List String) (data : Meta)
  | done (data : Meta)

/-- One iteration of the while loop at compile_manuscript.py lines 122-221,
operating on the unprocessed suffix of yaml_lines. -/
def pfmStep : List String → Meta → StepRes
  | [], d => .done d
  | line :: rest, d =>
    let stripped := pyStrip line
    if stripped = "" then .cont rest d
    else if stripped.data.contains ':' then
      let ind := indentation line
      let kv := splitColon stripped.data
      let key := pyStrip ⟨kv.1⟩
      let v := pyLstrip ⟨kv.2⟩
      if v = "|" || v = ">" then
        let p := collectBlock none rest
        .cont p.2 (dictInsert d key (.str (rstripLF (joinNL p.1))))
      else if v = "" then
        match findFirstItem ind rest with
        | some (it, rest1) =>
          let p := collectMore ind rest1
          .cont p.2 (dictInsert d key (.list (it :: p.1)))
        | none => .cont rest (dictInsert d key (.str ""))
      else
        let v2 : String := if quoteWrapped v then ⟨(v.data.drop 1).dropLast⟩ else v
        .cont rest (dictInsert d key (.str v2))
    else .cont rest d

/-- Run the parsing loop with explicit fuel; none models running out of
fuel before the loop exits. -/
def pfmRun : Nat → List String → Meta → Option Meta
  | 0, l, d =>
    match pfmStep l d with
    | .done d2 => some d2
    | .cont _ _ => none
  | fuel + 1, l, d =>
    match pfmStep l d with
    | .done d2 => some d2
    | .cont l2 d2 => pfmRun fuel l2 d2

/-- The parsed mapping for a list of front-matter lines.  Fuel equal to the
number of lines suffices (proved below); the default is unreachable. -/
def pfmData (yaml : List String) : Meta := (pfmRun yaml.length yaml []).getD []

/-- compile_manuscript.py parse_front_matter: parse a leading YAML block
into (mapping-or-none, body).  The mapping is none when no block is found,
the block is malformed, or zero keys were parsed. -/
def parse_front_matter (text : String) : Option Meta × String :=
  if text = "" then (none, text)
  else
    let lines := splitlinesKeep text
    if lines = [] then (none, text)
    else if pyStrip (stripBOM (lines.headD "")) ≠ "---" then (none, text)
    else
      match findCloseIdx lines.tail with
      | none => (none, text)
      | some k =>
        let yaml := (lines.tail.take k).map rstripNLCR
        let body := joinAll (lines.tail.drop (k + 1))
        let d := pfmData yaml
        (if d = [] then none else some d, body)

/-- Bounded-iteration model of parse_front_matter: some result when the
parsing loop exits within as many iterations as there are lines, none if
the fuel runs out first. -/
def parse_front_matter_fuel (text : String) : Option (Option Meta × String) :=
  if text = "" then some (none, text)
  else
    let lines := splitlinesKeep text
    if lines = [] then some (none, text)
    else if pyStrip (stripBOM (lines.headD "")) ≠ "---" then some (none, text)
    else
      match findCloseIdx lines.tail with
      | none => some (none, text)
      | some k =>
        let yaml := (lines.tail.take k).map rstripNLCR
        let body := joinAll (lines.tail.drop (k + 1))
        (pfmRun yaml.length yaml []).map
          (fun d => (if d = [] then none else some d, body))

/-! ## Termination of the parsing loop within the fuel bound -/

theorem collectBlock_len (l : List String) :
    ∀ base, (collectBlock base l).2.length ≤ l.length := by
  induction l with
  | nil => intro base; simp [collectBlock]
  | cons ln rest ih =>
    intro base
    simp only [collectBlock]
    split
    · exact (ih base).trans (Nat.le_succ _)
    · split
      · exact (ih _).trans (Nat.le_succ _)
      · split
        · simp
        · exact (ih _).trans (Nat.le_succ _)

theorem collectMore_len (ind : Nat) (l : List String) :
    (collectMore ind l).2.length ≤ l.length := by
  induction l with
  | nil => simp [collectMore]
  | cons ln rest ih =>
    simp only [collectMore]
    split
    · exact ih.trans (Nat.le_succ _)
    · split
      · simp
      · split
        · exact ih.trans (Nat.le_succ _)
        · simp

theorem findFirstItem_len (ind : Nat) (l : List String) :
    ∀ it rest1, findFirstItem ind l = some (it, rest1) → rest1.length < l.length := by
  induction l with
  | nil => intro it rest1 h; simp [findFirstItem] at h
  | cons ln rest ih =>
    intro it rest1 h
    simp only [findFirstItem] at h
    split at h
    · exact (ih it rest1 h).trans (Nat.lt_succ_self _)
    · split at h
      · exact absurd h (by simp)
      · split at h
        · cases h with
          | refl => exact Nat.lt_succ_self _
        · exact absurd h (by simp)

theorem pfmStep_len (x : String) (xs : List String) (d : Meta) (l2 : List String)
    (d2 : Meta) (h : pfmStep (x :: xs) d = .cont l2 d2) : l2.length ≤ xs.length := by
  simp only [pfmStep] at h
  split at h
  · cases h; exact Nat.le_refl _
  · split at h
    · split at h
      · cases h; exact collectBlock_len xs none
      · split at h
        · split at h
          next it rest1 hfi =>
            cases h
            exact (collectMore_len _ rest1).trans (Nat.le_of_lt (findFirstItem_len _ xs _ _ hfi))
          next => cases h; exact Nat.le_refl _
        · cases h; exact Nat.le_refl _
    · cases h; exact Nat.le_refl _

theorem pfmRun_isSome : ∀ (fuel : Nat) (l : List String) (d : Meta),
    l.length ≤ fuel → (pfmRun fuel l d).isSome = true := by
  intro fuel
  induction fuel with
  | zero =>
    intro l d h
    have hl : l = [] := List.length_eq_zero.mp (Nat.le_zero.mp h)
    subst hl
    simp [pfmRun, pfmStep]
  | succ n ih =>
    intro l d h
    simp only [pfmRun]
    split
    · simp
    next l2 d2 hstep =>
      cases l with
      | nil => simp [pfmStep] at hstep
      | cons x xs =>
        have hlen := pfmStep_len x xs d l2 d2 hstep
        exact ih l2 d2 (hlen.trans (Nat.le_of_succ_le_succ h))

theorem findCloseIdx_none (ls : List String)
    (h : ∀ l ∈ ls, pyStrip l ≠ "---" ∧ pyStrip l ≠ "...") : findCloseIdx ls = none := by
  induction ls with
  | nil => rfl
  | cons l rest ih =>
    simp only [findCloseIdx]
    have hl := h l (by simp)
    rw [if_neg (by simp [hl.1, hl.2])]
    rw [ih (fun x hx => h x (by simp [hx]))]
    rfl

/-- C4: the metadata parser is total: for every input string the
bounded-iteration model of the parsing loop terminates within one
iteration per line and returns exactly the pair computed by
parse_front_matter; no exception path exists in the embedding. -/
theorem parse_front_matter_total (text : String) :
    parse_front_matter_fuel text = some (parse_front_matter text) := by
  simp only [parse_front_matter_fuel, parse_front_matter]
  split
  · rfl
  · split
    · rfl
    · split
      · rfl
      · split
        · rfl
        next k _ =>
          set yaml := (((splitlinesKeep text).tail.take k).map rstripNLCR) with hy
          have hs := pfmRun_isSome yaml.length yaml [] (Nat.le_refl _)
          obtain ⟨d, hd⟩ := Option.isSome_iff_exists.mp hs
          simp [pfmData, hd]

/-- C9: on every input the body returned by parse_front_matter is exactly
the output of strip_yaml_front_matter: the full parser and the standalone
stripper always agree on where the body begins. -/
theorem parse_body_eq_strip (text : String) :
    (parse_front_matter text).2 = strip_yaml_front_matter text := by
  simp only [parse_front_matter, strip_yaml_front_matter]
  split
  · rfl
  · split
    · rfl
    · split
      · rfl
      · split
        · rfl
        · rfl

/-- C3: when the first line (after byte-order-mark removal) is an opening
delimiter but no later line strips to a closing delimiter, parse_front_matter
returns no mapping and the text completely unchanged. -/
theorem parse_front_matter_malformed (text : String)
    (h1 : pyStrip (stripBOM ((splitlinesKeep text).headD "")) = "---")
    (h2 : ∀ l ∈ (splitlinesKeep text).tail, pyStrip l ≠ "---" ∧ pyStrip l ≠ "...") :
    parse_front_matter text = (none, text) := by
  have hne : text ≠ "" := by
    intro he
    rw [he] at h1
    simp [splitlinesKeep, splitGo, stripBOM, pyStrip, pyStripL, rstripP] at h1
  have hlne : splitlinesKeep text ≠ [] := by
    intro he
    rw [he] at h1
    simp [stripBOM, pyStrip, pyStripL, rstripP] at h1
  simp only [parse_front_matter]
  rw [if_neg hne, if_neg (by simpa using hlne), if_neg (by simp only [ne_eq, not_not]; simpa using h1),
    findCloseIdx_none _ h2]

/-- Witness for C3 at a concrete malformed input. -/
theorem parse_front_matter_malformed_witness :
    parse_front_matter "---\ntitle: x" = (none, "---\ntitle: x") :=
  parse_front_matter_malformed "---\ntitle: x" (by decide) (by decide)

/-- Counterexample for C5: the guard (ind == 0 or key is None) always
passes because key is always None at the top of the loop, so the indented
colon line inside this well-formed block is started as a new top-level key,
contrary to the claim that only zero-indentation lines are processed. -/
theorem parse_indented_key_counterexample :
    parse_front_matter "---\nkey: value\n  indented: x\n---\nrest" =
      (some [("key", MValue.str "value"), ("indented", MValue.str "x")], "rest") := by
  decide

theorem data_append (a b : String) : (a ++ b).data = a.data ++ b.data := rfl

theorem splitGo_other (c : Char) (cur rest : List Char) (h1 : c ≠ '\n') (h2 : c ≠ '\r') :
    splitGo cur (c :: rest) = splitGo (c :: cur) rest := by
  rw [splitGo.eq_def]
  split <;> simp_all

theorem splitGo_nl (cur rest : List Char) :
    splitGo cur ('\n' :: rest) = (cur.reverse ++ ['\n']) :: splitGo [] rest := by
  rw [splitGo.eq_def]
  split <;> try simp_all
  rename_i hn hr heq
  exact absurd heq.1.symm hn

theorem splitGo_sep (a : List Char) : ∀ (cur rest : List Char),
    (∀ c ∈ a, c ≠ '\n' ∧ c ≠ '\r') →
    splitGo cur (a ++ '\n' :: rest) = ((cur.reverse ++ a) ++ ['\n']) :: splitGo [] rest := by
  induction a with
  | nil => intro cur rest _; simp [splitGo_nl]
  | cons c a2 ih =>
    intro cur rest h
    have hc := h c (by simp)
    rw [List.cons_append, splitGo_other c cur _ hc.1 hc.2,
      ih (c :: cur) rest (fun x hx => h x (by simp [hx]))]
    simp

theorem dropWhile_pyWs_pad (n : Nat) (l : List Char) :
    (List.replicate n ' ' ++ l).dropWhile pyWs = l.dropWhile pyWs := by
  induction n with
  | zero => simp
  | succ m ih => simp [List.replicate_succ, List.dropWhile_cons, pyWs, ih]

theorem pyStrip_pad (n : Nat) (l : List Char) :
    pyStrip ⟨List.replicate n ' ' ++ l⟩ = pyStrip ⟨l⟩ := by
  simp [pyStrip, pyStripL, dropWhile_pyWs_pad]

theorem rstripP_concat (p : Char → Bool) (a b : List Char)
    (h : b.reverse.dropWhile p ≠ []) : rstripP p (a ++ b) = a ++ rstripP p b := by
  unfold rstripP
  rw [List.reverse_append, List.dropWhile_append, if_neg (by simpa using h),
    List.reverse_append, List.reverse_reverse]

theorem pad_no_nlcr (n : Nat) : ∀ c ∈ List.replicate n ' ', c ≠ '\n' ∧ c ≠ '\r' := by
  intro c hc
  rw [List.eq_of_mem_replicate hc]
  decide

/-- C5 amended: a colon-bearing line reached by the top-level scan is
processed as a key-value pair at every indentation depth, because the
guard (ind == 0 or key is None) always passes; the parsed mapping is the
same for every number of leading spaces. -/
theorem parse_indented_key_any_depth (n : Nat) :
    parse_front_matter ("---\n" ++ (⟨List.replicate n ' '⟩ : String) ++ "k: v\n---\n") =
      (some [("k", MValue.str "v")], "") := by
  have hdata : ("---\n" ++ (⟨List.replicate n ' '⟩ : String) ++ "k: v\n---\n").data
      = '-' :: '-' :: '-' :: '\n' ::
        ((List.replicate n ' ' ++ ['k', ':', ' ', 'v']) ++ '\n' :: ['-', '-', '-', '\n']) := by
    simp [data_append, List.append_assoc]
  have hsplit : splitlinesKeep ("---\n" ++ (⟨List.replicate n ' '⟩ : String) ++ "k: v\n---\n")
      = ["---\n", ⟨List.replicate n ' ' ++ ['k', ':', ' ', 'v', '\n']⟩, "---\n"] := by
    unfold splitlinesKeep
    rw [hdata]
    rw [splitGo_other '-' [] _ (by decide) (by decide)]
    rw [splitGo_other '-' ['-'] _ (by decide) (by decide)]
    rw [splitGo_other '-' ['-', '-'] _ (by decide) (by decide)]
    rw [splitGo_nl]
    rw [splitGo_sep (List.replicate n ' ' ++ ['k', ':', ' ', 'v']) [] _ ?side]
    case side =>
      intro c hc
      rcases List.mem_append.mp hc with h | h
      · exact pad_no_nlcr n c h
      · fin_cases h <;> decide
    rw [show splitGo ([] : List Char) ['-', '-', '-', '\n'] = [['-', '-', '-', '\n']] from by decide]
    simp [List.append_assoc]
  have hne : ("---\n" ++ (⟨List.replicate n ' '⟩ : String) ++ "k: v\n---\n") ≠ "" := by
    intro h
    have h2 := congrArg String.data h
    rw [hdata] at h2
    simp at h2
  have hstrip2 : pyStrip ⟨List.replicate n ' ' ++ ['k', ':', ' ', 'v']⟩ = "k: v" := by
    rw [pyStrip_pad]; decide
  have hstrip3 : pyStrip ⟨List.replicate n ' ' ++ ['k', ':', ' ', 'v', '\n']⟩ = "k: v" := by
    rw [pyStrip_pad]; decide
  have hrs : rstripNLCR ⟨List.replicate n ' ' ++ ['k', ':', ' ', 'v', '\n']⟩
      = ⟨List.replicate n ' ' ++ ['k', ':', ' ', 'v']⟩ := by
    unfold rstripNLCR
    rw [show (⟨List.replicate n ' ' ++ ['k', ':', ' ', 'v', '\n']⟩ : String).data
        = List.replicate n ' ' ++ ['k', ':', ' ', 'v', '\n'] from rfl]
    rw [rstripP_concat _ _ _ (by decide)]
    rw [show rstripP (fun c => c = '\n' || c = '\r') ['k', ':', ' ', 'v', '\n']
        = ['k', ':', ' ', 'v'] from by decide]
  have hfc : findCloseIdx [⟨List.replicate n ' ' ++ ['k', ':', ' ', 'v', '\n']⟩, "---\n"]
      = some 1 := by
    unfold findCloseIdx
    rw [if_neg (by rw [hstrip3]; decide)]
    rfl
  have hstep : pfmStep [⟨List.replicate n ' ' ++ ['k', ':', ' ', 'v']⟩] []
      = .cont [] [("k", MValue.str "v")] := by
    simp only [pfmStep]
    rw [hstrip2]
    rfl
  have hq : pfmData [⟨List.replicate n ' ' ++ ['k', ':', ' ', 'v']⟩] = [("k", MValue.str "v")] := by
    unfold pfmData
    rw [show List.length [(⟨List.replicate n ' ' ++ ['k', ':', ' ', 'v']⟩ : String)] = 0 + 1 from rfl]
    unfold pfmRun
    rw [hstep]
    rfl
  unfold parse_front_matter
  rw [if_neg hne]
  simp only [hsplit]
  rw [if_neg (by simp), if_neg (by rw [List.headD_cons]; decide)]
  simp only [List.tail_cons, hfc]
  simp only [List.take, List.map, hrs, List.drop, joinAll, hq]
  rfl

/-! ## Word counting: the regex findall(r"\b[\w']+\b", text)

Both scripts define WORD_RE = re.compile(r"\b[\w']+\b", re.UNICODE) and
count len(WORD_RE.findall(text)).  The executable model implements the
backtracking regex engine for this one pattern: scan left to right; at a
word boundary take the greedy run of word-or-apostrophe characters and
backtrack to the longest end position that is again a word boundary; a
successful match advances the scan past the consumed characters. -/

/-- The regex class \w: letters, digits, underscore. -/
def isW (c : Char) : Bool := c.isAlphanum || c = '_'

/-- The bracket class of the pattern: \w plus the apostrophe. -/
def isWA (c : Char) : Bool := isW c || c = Char.ofNat 39

/-- Whether an optional character (none at the string edges) is a \w char. -/
def optW : Option Char → Bool
  | none => false
  | some c => isW c

/-- The zero-width \b assertion between two optional characters. -/
def boundaryB (prev cur : Option Char) : Bool := optW prev != optW cur

/-- The character at offset i of pref, or the first character after pref. -/
def afterChar (pref : List Char) (next : Option Char) (i : Nat) : Option Char :=
  match pref[i]? with
  | some c => some c
  | none => next

/-- Backtracking search for the longest match end: try end positions e,
e-1, ..., 1 and keep the first one where \b holds between pref[e-1] and
the following character. -/
def backEnd (pref : List Char) (next : Option Char) : Nat → Option Nat
  | 0 => none
  | e + 1 =>
    if boundaryB pref[e]? (afterChar pref next (e + 1)) then some (e + 1)
    else backEnd pref next e

/-- Longest end position of a match of [\w']+\b starting at the head of
pref (the greedy prefix), given the character following pref. -/
def matchEnd (pref : List Char) (next : Option Char) : Option Nat :=
  backEnd pref next pref.length

/-- The findall scan: prev is the character before the current position;
fuel (one unit per consumed character) makes the recursion structural. -/
def scanCountF : Nat → Option Char → List Char → Nat
  | 0, _, _ => 0
  | _ + 1, _, [] => 0
  | fuel + 1, prev, c :: cs =>
    if boundaryB prev (some c) then
      let pref := (c :: cs).takeWhile isWA
      match matchEnd pref ((c :: cs).dropWhile isWA).head? with
      | some e => 1 + scanCountF fuel pref[e - 1]? ((c :: cs).drop e)
      | none => scanCountF fuel (some c) cs
    else scanCountF fuel (some c) cs

/-- Number of matches of the word regex in l (len(WORD_RE.findall(text))). -/
def findallCount (l : List Char) : Nat := scanCountF l.length none l

namespace WordCount

/-- word_count.py count_words: strip a leading front-matter block, then
count regex word tokens. -/
def count_words (text : String) : Nat :=
  if text = "" then 0
  else findallCount (strip_yaml_front_matter text).data

end WordCount

namespace CompileManuscript

/-- compile_manuscript.py count_words: count regex word tokens on the text
as given (its callers strip front matter first). -/
def count_words (text : String) : Nat :=
  if text = "" then 0
  else findallCount text.data

end CompileManuscript

/-- Spec-side counter for the original claim: the number of maximal runs
of word characters (letters, digits, underscore, apostrophe), with no
requirement that a run contain a letter, digit or underscore.  The Bool
state says whether the previous character was inside a run. -/
def specRunsAux : Bool → List Char → Nat
  | inRun, [] => if inRun then 1 else 0
  | inRun, c :: cs =>
    if isWA c then specRunsAux true cs
    else (if inRun then 1 else 0) + specRunsAux false cs

/-- Number of maximal runs of word-or-apostrophe characters. -/
def specRunsCount (l : List Char) : Nat := specRunsAux false l

/-- Spec-side counter for the amended claim: the number of maximal runs of
word-or-apostrophe characters that contain at least one \w character.  The
state is none outside a run and some seenW inside one. -/
def runsCountAux : Option Bool → List Char → Nat
  | st, [] => if st = some true then 1 else 0
  | st, c :: cs =>
    if isWA c then runsCountAux (some (st.getD false || isW c)) cs
    else (if st = some true then 1 else 0) + runsCountAux none cs

/-- Number of maximal word-or-apostrophe runs containing a \w character. -/
def runsCount (l : List Char) : Nat := runsCountAux none l

/-! ## Equivalence of the regex scan with run counting -/

theorem dropWhile_head_false {p : Char → Bool} : ∀ {l : List Char} {c : Char} {t : List Char},
    l.dropWhile p = c :: t → p c = false := by
  intro l
  induction l with
  | nil => intro c t h; simp [List.dropWhile] at h
  | cons a as ih =>
    intro c t h
    rw [List.dropWhile_cons] at h
    split at h
    · exact ih h
    · cases h
      rename_i hpa
      exact Bool.of_not_eq_true hpa

theorem all_takeWhile (p : Char → Bool) : ∀ l : List Char, (l.takeWhile p).all p = true := by
  intro l
  induction l with
  | nil => simp
  | cons a as ih =>
    rw [List.takeWhile_cons]
    split
    · rename_i hpa; simp [hpa, ih]
    · simp

theorem takeWhile_append_all (p : Char → Bool) : ∀ (a b : List Char), a.all p = true →
    (a ++ b).takeWhile p = a ++ b.takeWhile p := by
  intro a
  induction a with
  | nil => simp
  | cons x xs ih =>
    intro b h
    simp only [List.all_cons, Bool.and_eq_true] at h
    simp [List.takeWhile_cons, h.1, ih b h.2]

theorem runsAux_false_eq_none : ∀ l, runsCountAux (some false) l = runsCountAux none l := by
  intro l
  induction l with
  | nil => rfl
  | cons c cs ih =>
    simp only [runsCountAux]
    split
    · rfl
    · simp

theorem runsAux_run : ∀ (R : List Char) (b : Bool) (suf : List Char),
    R.all isWA = true → (∀ c, suf.head? = some c → isWA c = false) →
    runsCountAux (some b) (R ++ suf) =
      (if b || R.any isW then 1 else 0) + runsCountAux none suf := by
  intro R
  induction R with
  | nil =>
    intro b suf _ hsuf
    cases suf with
    | nil => cases b <;> simp [runsCountAux]
    | cons c cs =>
      have hc := hsuf c rfl
      simp only [List.nil_append, runsCountAux, hc, Bool.false_eq_true, if_false,
        List.any_nil, Bool.or_false]
      cases b <;> simp
  | cons r R2 ih =>
    intro b suf hall hsuf
    simp only [List.all_cons, Bool.and_eq_true] at hall
    have h1 : runsCountAux (some b) ((r :: R2) ++ suf)
        = runsCountAux (some (b || isW r)) (R2 ++ suf) := by
      simp [runsCountAux, hall.1]
    rw [h1, ih (b || isW r) suf hall.2 hsuf]
    simp [List.any_cons, Bool.or_assoc]

theorem runsCount_run_append (R suf : List Char) (hne : R ≠ [])
    (hall : R.all isWA = true) (hsuf : ∀ c, suf.head? = some c → isWA c = false) :
    runsCount (R ++ suf) = (if R.any isW then 1 else 0) + runsCount suf := by
  cases R with
  | nil => exact absurd rfl hne
  | cons r R2 =>
    simp only [List.all_cons, Bool.and_eq_true] at hall
    have h1 : runsCount ((r :: R2) ++ suf) = runsCountAux (some (isW r)) (R2 ++ suf) := by
      simp [runsCount, runsCountAux, hall.1]
    rw [h1, runsAux_run R2 (isW r) suf hall.2 hsuf]
    simp [List.any_cons]
    rfl

theorem runs_cons_nonW (c : Char) (cs : List Char) (hw : isW c = false) :
    runsCount (c :: cs) = runsCount cs := by
  by_cases hwa : isWA c = true
  · simp only [runsCount, runsCountAux, hwa, if_pos, Option.getD_none, hw,
      Bool.false_or]
    exact runsAux_false_eq_none cs
  · simp only [runsCount, runsCountAux, Bool.of_not_eq_true hwa, Bool.false_eq_true,
      if_false]
    simp

theorem optW_getElem_q (u : List Char) (w : Char) (q : List Char) (k : Nat)
    (hq : q.all (fun c => !isW c) = true) :
    optW ((u ++ w :: q)[u.length + 1 + k]?) = false := by
  have hidx : (u ++ w :: q)[u.length + 1 + k]? = q[k]? := by
    rw [List.getElem?_append_right (by omega)]
    rw [show u.length + 1 + k - u.length = k + 1 from by omega]
    exact List.getElem?_cons_succ
  rw [hidx]
  cases hk : q[k]? with
  | none => rfl
  | some c =>
    have hc : c ∈ q := List.getElem?_mem hk
    have h2 := List.all_eq_true.mp hq c hc
    simp only [optW]
    simpa using h2

theorem afterChar_q_false (u : List Char) (w : Char) (q : List Char)
    (next : Option Char) (k : Nat) (hq : q.all (fun c => !isW c) = true)
    (hnext : optW next = false) :
    optW (afterChar (u ++ w :: q) next (u.length + 1 + k)) = false := by
  unfold afterChar
  cases hc : (u ++ w :: q)[u.length + 1 + k]? with
  | none => exact hnext
  | some c =>
    have h2 := optW_getElem_q u w q k hq
    rw [hc] at h2
    exact h2

theorem backEnd_skip (u : List Char) (w : Char) (q : List Char) (next : Option Char)
    (hq : q.all (fun c => !isW c) = true) (hnext : optW next = false) :
    ∀ j, j ≤ q.length →
    backEnd (u ++ w :: q) next (u.length + 1 + j) = backEnd (u ++ w :: q) next (u.length + 1) := by
  intro j
  induction j with
  | zero => intro _; rfl
  | succ k ih =>
    intro hle
    show backEnd (u ++ w :: q) next ((u.length + 1 + k) + 1) = _
    unfold backEnd
    have h1 : optW ((u ++ w :: q)[u.length + 1 + k]?) = false := optW_getElem_q u w q k hq
    have h2 : optW (afterChar (u ++ w :: q) next (u.length + 1 + k + 1)) = false := by
      have := afterChar_q_false u w q next (k + 1) hq hnext
      rw [show u.length + 1 + (k + 1) = u.length + 1 + k + 1 from by omega] at this
      exact this
    rw [if_neg (by simp [boundaryB, h1, h2])]
    exact ih (by omega)

theorem backEnd_hit (u : List Char) (w : Char) (q : List Char) (next : Option Char)
    (hw : isW w = true) (hq : q.all (fun c => !isW c) = true) (hnext : optW next = false) :
    backEnd (u ++ w :: q) next (u.length + 1) = some (u.length + 1) := by
  show backEnd (u ++ w :: q) next (u.length + 1) = _
  unfold backEnd
  have h1 : (u ++ w :: q)[u.length]? = some w := by
    rw [List.getElem?_append_right (Nat.le_refl _)]
    simp
  have h2 : optW (afterChar (u ++ w :: q) next (u.length + 1)) = false := by
    have h3 := afterChar_q_false u w q next 0 hq hnext
    simpa using h3
  have hb : boundaryB ((u ++ w :: q)[u.length]?)
      (afterChar (u ++ w :: q) next (u.length + 1)) = true := by
    unfold boundaryB
    rw [h1, h2]
    simp [optW, hw]
  rw [if_pos hb]

theorem matchEnd_found (u : List Char) (w : Char) (q : List Char) (next : Option Char)
    (hw : isW w = true) (hq : q.all (fun c => !isW c) = true) (hnext : optW next = false) :
    matchEnd (u ++ w :: q) next = some (u.length + 1) := by
  unfold matchEnd
  rw [show (u ++ w :: q).length = u.length + 1 + q.length from by simp; omega]
  rw [backEnd_skip u w q next hq hnext q.length (Nat.le_refl _)]
  exact backEnd_hit u w q next hw hq hnext

theorem backEnd_none (pref : List Char) (next : Option Char)
    (hall : pref.all (fun c => !isW c) = true) (hnext : optW next = false) :
    ∀ e, e ≤ pref.length → backEnd pref next e = none := by
  intro e
  induction e with
  | zero => intro _; rfl
  | succ k ih =>
    intro hle
    unfold backEnd
    have hk : k < pref.length := hle
    have h1 : optW pref[k]? = false := by
      rw [List.getElem?_eq_getElem hk]
      have h2 := List.all_eq_true.mp hall (pref[k]) (pref.getElem_mem hk)
      simp only [optW]
      simpa using h2
    have h2 : optW (afterChar pref next (k + 1)) = false := by
      unfold afterChar
      cases hc : pref[k + 1]? with
      | none => exact hnext
      | some c =>
        have hcm : c ∈ pref := List.getElem?_mem hc
        have h3 := List.all_eq_true.mp hall c hcm
        simp only [optW]
        simpa using h3
    rw [if_neg (by simp [boundaryB, h1, h2])]
    exact ih (Nat.le_of_succ_le hle)

theorem matchEnd_none (pref : List Char) (next : Option Char)
    (hall : pref.all (fun c => !isW c) = true) (hnext : optW next = false) :
    matchEnd pref next = none :=
  backEnd_none pref next hall hnext pref.length (Nat.le_refl _)

theorem exists_last_w (R : List Char) (h : R.any isW = true) :
    ∃ u w q, R = u ++ w :: q ∧ isW w = true ∧ q.all (fun c => !isW c) = true := by
  cases hdrop : R.reverse.dropWhile (fun c => !isW c) with
  | nil =>
    exfalso
    have hall : ∀ x ∈ R.reverse, (!isW x) = true := List.dropWhile_eq_nil_iff.mp hdrop
    obtain ⟨c, hc, hw⟩ := List.any_eq_true.mp h
    have := hall c (List.mem_reverse.mpr hc)
    simp [hw] at this
  | cons w u2 =>
    refine ⟨u2.reverse, w, (R.reverse.takeWhile (fun c => !isW c)).reverse, ?_, ?_, ?_⟩
    · have hsplit := List.takeWhile_append_dropWhile (p := fun c => !isW c) (l := R.reverse)
      conv_lhs => rw [← List.reverse_reverse R, ← hsplit, hdrop]
      simp
    · have h2 := dropWhile_head_false hdrop
      simpa using h2
    · have h2 := all_takeWhile (fun c => !isW c) R.reverse
      simp only [List.all_reverse]
      exact h2

theorem isW_le_isWA (c : Char) (h : isWA c = false) : isW c = false := by
  unfold isWA at h
  exact (Bool.or_eq_false_iff.mp h).1

theorem scan_eq_runs : ∀ (fuel : Nat) (l : List Char) (prev : Option Char),
    l.length ≤ fuel →
    (∀ p, prev = some p → isW p = true →
      ((l.takeWhile isWA).all (fun c => !isW c)) = true) →
    scanCountF fuel prev l = runsCount l := by
  intro fuel
  induction fuel with
  | zero =>
    intro l prev h _
    have hl : l = [] := List.length_eq_zero.mp (Nat.le_zero.mp h)
    subst hl
    rfl
  | succ f ih =>
    intro l prev hlen hinv
    cases l with
    | nil => rfl
    | cons c cs =>
      have hsplit2 : (c :: cs).takeWhile isWA ++ (c :: cs).dropWhile isWA = c :: cs :=
        List.takeWhile_append_dropWhile isWA (c :: cs)
      have hnext : optW ((c :: cs).dropWhile isWA).head? = false := by
        cases hs : ((c :: cs).dropWhile isWA) with
        | nil => rfl
        | cons s t =>
          have hwa : isWA s = false := dropWhile_head_false hs
          simp only [List.head?_cons, optW]
          exact isW_le_isWA s hwa
      have hsufWA : ∀ x, ((c :: cs).dropWhile isWA).head? = some x → isWA x = false := by
        intro x hx
        cases hs : ((c :: cs).dropWhile isWA) with
        | nil => rw [hs] at hx; simp at hx
        | cons s t =>
          rw [hs] at hx
          simp only [List.head?_cons, Option.some.injEq] at hx
          rw [← hx]
          exact dropWhile_head_false hs
      simp only [scanCountF]
      by_cases hb : boundaryB prev (some c) = true
      · rw [if_pos hb]
        by_cases hW : ((c :: cs).takeWhile isWA).any isW = true
        · obtain ⟨u, w, q, hdecomp, hw, hq⟩ := exists_last_w _ hW
          have hprefWA : ((c :: cs).takeWhile isWA).all isWA = true := all_takeWhile isWA _
          have hqWA : q.all isWA = true := by
            rw [hdecomp] at hprefWA
            simp only [List.all_append, List.all_cons, Bool.and_eq_true] at hprefWA
            exact hprefWA.2.2
          rw [hdecomp, matchEnd_found u w q _ hw hq hnext]
          simp only []
          have hidx : (u ++ w :: q)[u.length + 1 - 1]? = some w := by
            rw [show u.length + 1 - 1 = u.length from by omega]
            rw [List.getElem?_append_right (Nat.le_refl _)]
            simp
          rw [hidx]
          have hdrop : (c :: cs).drop (u.length + 1) = q ++ (c :: cs).dropWhile isWA := by
            conv_lhs => rw [← hsplit2, hdecomp]
            rw [show (u ++ w :: q) ++ (c :: cs).dropWhile isWA
                = u ++ (w :: (q ++ (c :: cs).dropWhile isWA)) from by simp]
            rw [show u.length + 1 = u.length + 1 from rfl]
            rw [List.drop_append]
            simp
          rw [hdrop]
          have hL : cs.length + 1 = u.length + 1 + (q.length + ((c :: cs).dropWhile isWA).length) := by
            have h2 := congrArg List.length hsplit2
            rw [hdecomp] at h2
            simp only [List.length_append, List.length_cons] at h2
            omega
          have hlen3 : cs.length + 1 ≤ f + 1 := by simpa using hlen
          have hlen2 : (q ++ (c :: cs).dropWhile isWA).length ≤ f := by
            simp only [List.length_append]
            omega
          have hinv2 : ∀ p, (some w : Option Char) = some p → isW p = true →
              (((q ++ (c :: cs).dropWhile isWA).takeWhile isWA).all (fun x => !isW x)) = true := by
            intro p hp _
            have htw : (q ++ (c :: cs).dropWhile isWA).takeWhile isWA
                = q ++ ((c :: cs).dropWhile isWA).takeWhile isWA := takeWhile_append_all isWA _ _ hqWA
            have htw2 : ((c :: cs).dropWhile isWA).takeWhile isWA = [] := by
              cases hs : ((c :: cs).dropWhile isWA) with
              | nil => rfl
              | cons s t =>
                have hwa : isWA s = false := dropWhile_head_false hs
                simp [List.takeWhile_cons, hwa]
            rw [htw, htw2, List.append_nil]
            exact hq
          rw [ih _ _ hlen2 hinv2]
          have hrhs : runsCount (c :: cs)
              = 1 + runsCount ((c :: cs).dropWhile isWA) := by
            conv_lhs => rw [← hsplit2]
            rw [runsCount_run_append _ _ (by rw [hdecomp]; simp) hprefWA hsufWA]
            rw [if_pos hW]
          have hlhs : runsCount (q ++ (c :: cs).dropWhile isWA)
              = runsCount ((c :: cs).dropWhile isWA) := by
            cases hqe : q with
            | nil => simp
            | cons q1 q2 =>
              rw [← hqe]
              have hqNoW : q.any isW = false := by
                rw [Bool.eq_false_iff]
                intro hany
                obtain ⟨x, hx, hxw⟩ := List.any_eq_true.mp hany
                have := List.all_eq_true.mp hq x hx
                simp [hxw] at this
              rw [runsCount_run_append q _ (by rw [hqe]; simp) hqWA hsufWA, hqNoW]
              simp
          rw [hlhs, hrhs]
        · have hallnW : ((c :: cs).takeWhile isWA).all (fun x => !isW x) = true := by
            rw [List.all_eq_true]
            intro x hx
            by_contra hxx
            have hxw : isW x = true := by simpa using hxx
            exact absurd (List.any_eq_true.mpr ⟨x, hx, hxw⟩) (by simp [hW])
          rw [matchEnd_none _ _ hallnW hnext]
          simp only []
          have hcW : isW c = false := by
            by_cases hwa : isWA c = true
            · have hpc : c ∈ (c :: cs).takeWhile isWA := by
                simp [List.takeWhile_cons, hwa]
              have h2 := List.all_eq_true.mp hallnW c hpc
              simpa using h2
            · exact isW_le_isWA c (Bool.of_not_eq_true hwa)
          rw [ih cs (some c) (Nat.le_of_succ_le_succ hlen)
            (by intro p hp hpw; cases hp; rw [hcW] at hpw; cases hpw)]
          exact (runs_cons_nonW c cs hcW).symm
      · rw [if_neg hb]
        have hbf : optW prev = isW c := by
          have h2 : (optW prev != optW (some c)) = false := by
            rw [show boundaryB prev (some c) = (optW prev != optW (some c)) from rfl] at hb
            exact Bool.of_not_eq_true hb
          have h3 := bne_eq_false_iff_eq.mp h2
          rw [h3]
          rfl
        have hcW : isW c = false := by
          by_contra hcc
          have hcc2 : isW c = true := by simpa using hcc
          have hp : optW prev = true := by rw [hbf]; exact hcc2
          cases prev with
          | none => simp [optW] at hp
          | some p =>
            have hinvp := hinv p rfl (by simpa [optW] using hp)
            have hcWA : isWA c = true := by simp [isWA, hcc2]
            have hmem : c ∈ (c :: cs).takeWhile isWA := by
              simp [List.takeWhile_cons, hcWA]
            have h4 := List.all_eq_true.mp hinvp c hmem
            simp [hcc2] at h4
        rw [ih cs (some c) (Nat.le_of_succ_le_succ hlen)
          (by intro p hp hpw; cases hp; rw [hcW] at hpw; cases hpw)]
        exact (runs_cons_nonW c cs hcW).symm

theorem findallCount_eq_runsCount (l : List Char) : findallCount l = runsCount l :=
  scan_eq_runs l.length l none (Nat.le_refl _) (by intro p hp; cases hp)

/-- Counterexample for C6: compile_manuscript.py count_words does not strip
a leading metadata block (one token counted inside the block), and a run
consisting solely of apostrophes is a maximal run of word characters per
the claim yet counts zero matches. -/
theorem count_words_counterexample :
    CompileManuscript.count_words "---\nabc\n---\n" = 1 ∧
    WordCount.count_words "'''" = 0 ∧
    specRunsCount "'''".data = 1 := by
  refine ⟨by decide, by decide, by decide⟩

/-- C6 amended: word_count.py count_words strips a leading metadata block
and returns the number of maximal runs of word-or-apostrophe characters
that contain at least one letter, digit or underscore (a run of
apostrophes alone is not counted); compile_manuscript.py count_words
performs the same tokenization without stripping. -/
theorem count_words_amended (text : String) :
    WordCount.count_words text = runsCount (strip_yaml_front_matter text).data ∧
    CompileManuscript.count_words text = runsCount text.data := by
  constructor
  · unfold WordCount.count_words
    split
    · rename_i h
      rw [h]
      rfl
    · exact findallCount_eq_runsCount _
  · unfold CompileManuscript.count_words
    split
    · rename_i h
      rw [h]
      rfl
    · exact findallCount_eq_runsCount _

/-! ## Structure collection (compile_manuscript.py lines 233-284)

The filesystem is modelled as a snapshot: the root is a list of directory
entries in listing order, a directory entry carries its name and its
contained files as (name, content) pairs in listing order.  Reading a
scene file never fails in the model (decode errors are recovered in the
source by a lossy fallback and the recovered text is the content given
here). -/

/-- Numeric value of a decimal digit character. -/
def digitVal (c : Char) : Nat := c.toNat - 48

/-- Case-insensitive comparison of a name character with a pattern letter,
for the re.IGNORECASE scene pattern. -/
def eqi (a b : Char) : Bool := a.toLower = b.toLower

/-- The title group of CHAPTER_DIR_RE: the regex .+$ matches a nonempty
newline-free remainder, with the anchor also accepting one final newline
that is then not part of the group. -/
def chapTitle (rest : List Char) : Option (List Char) :=
  let core := if rest.getLast? = some '\n' then rest.dropLast else rest
  if core = [] || core.contains '\n' then none else some core

/-- compile_manuscript.py parse_chapter_dir: match the folder name against
CHAPTER_DIR_RE = two digits, a dash, a title; non-directories and
non-matching names are not chapters.  Returns (number, stripped title). -/
def parse_chapter_dir (name : String) (isDir : Bool) : Option (Nat × String) :=
  if !isDir then none
  else
    match name.data with
    | d1 :: d2 :: sep :: rest =>
      if d1.isDigit && d2.isDigit && sep = '-' then
        (chapTitle rest).map (fun t => (digitVal d1 * 10 + digitVal d2, pyStrip ⟨t⟩))
      else none
    | _ => none

/-- Drop one final newline, the tolerance of an unanchored $ at the end of
a fullmatch-style pattern. -/
def stripFinalNL (l : List Char) : List Char :=
  if l.getLast? = some '\n' then l.dropLast else l

/-- compile_manuscript.py parse_scene_file: match the file name against
SCENE_FILE_RE = chNN-scMM.md, case-insensitively, returning the chapter
and scene numbers from the name. -/
def parse_scene_file (name : String) : Option (Nat × Nat) :=
  match stripFinalNL name.data with
  | [c1, c2, d1, d2, h, s1, s2, d3, d4, dot, m1, m2] =>
    if eqi c1 'c' && eqi c2 'h' && d1.isDigit && d2.isDigit && h = '-' &&
        eqi s1 's' && eqi s2 'c' && d3.isDigit && d4.isDigit && dot = '.' &&
        eqi m1 'm' && eqi m2 'd' then
      some (digitVal d1 * 10 + digitVal d2, digitVal d3 * 10 + digitVal d4)
    else none
  | _ => none

/-- A scene as collected: the numbers parsed from the file name, the file
name (the sort tiebreak), and the file content. -/
structure SceneC where
  chapter_num : Nat
  scene_num : Nat
  name : String
  text : String
deriving DecidableEq

/-- A chapter as collected: number and stripped title from the folder
name, plus its sorted scenes. -/
structure ChapterC where
  number : Nat
  title : String
  scenes : List SceneC
deriving DecidableEq

/-- A directory entry of the root snapshot. -/
structure DirEntry where
  name : String
  isDir : Bool
  files : List (String × String)
deriving DecidableEq

/-- Strict comparison on the Python sort key (chapter_num, scene_num,
path name) used at compile_manuscript.py line 280. -/
def sceneKeyLt (a b : SceneC) : Bool :=
  decide (a.chapter_num < b.chapter_num) ||
    (decide (a.chapter_num = b.chapter_num) &&
      (decide (a.scene_num < b.scene_num) ||
        (decide (a.scene_num = b.scene_num) && decide (a.name < b.name))))

/-- Python str.lower(). -/
def pyLower (s : String) : String := ⟨s.data.map Char.toLower⟩

/-- Strict comparison on the Python sort key (number, title.lower()) used
at compile_manuscript.py line 283. -/
def chapterKeyLt (a b : ChapterC) : Bool :=
  decide (a.number < b.number) ||
    (decide (a.number = b.number) && decide (pyLower a.title < pyLower b.title))

/-- Insert x after every element not strictly greater, giving a stable
ascending order as Python list.sort. -/
def insertLt {α : Type} (lt : α → α → Bool) (x : α) : List α → List α
  | [] => [x]
  | y :: ys => if lt x y then x :: y :: ys else y :: insertLt lt x ys

/-- Stable insertion sort, the order produced by Python list.sort. -/
def insSortLt {α : Type} (lt : α → α → Bool) : List α → List α
  | [] => []
  | x :: xs => insertLt lt x (insSortLt lt xs)

/-- compile_manuscript.py collect_structure: chapters from matching
directory entries, each with the scenes of its *.md files matching the
scene pattern, scenes sorted by (chapter-from-filename, scene, name) and
chapters by (number, lowercased title). -/
def collect_structure (entries : List DirEntry) : List ChapterC :=
  insSortLt chapterKeyLt (entries.filterMap (fun e =>
    (parse_chapter_dir e.name e.isDir).map (fun p =>
      { number := p.1, title := p.2,
        scenes := insSortLt sceneKeyLt
          ((e.files.filter (fun f => strEndsWith f.1 ".md")).filterMap (fun f =>
            (parse_scene_file f.1).map (fun cs =>
              { chapter_num := cs.1, scene_num := cs.2, name := f.1, text := f.2 })))
      })))

/-! ## Rendering and assembly (compile_manuscript.py lines 287-398) -/

/-- Two-digit zero-padded decimal, the f-spec {n:02d}. -/
def pad2 (n : Nat) : String := if n < 10 then "0" ++ natToStr n else natToStr n

/-- compile_manuscript.py render_chapter_heading. -/
def render_chapter_heading (ch : ChapterC) (style : String) : String :=
  let chapter_label := "Chapter " ++ pad2 ch.number
  if style = "none" then ""
  else if style = "number" then "# " ++ chapter_label ++ "\n\n"
  else "# " ++ chapter_label ++ ": " ++ ch.title ++ "\n\n"

/-- compile_manuscript.py render_scene_separator. -/
def render_scene_separator (sep : String) : String :=
  if sep = "none" then ""
  else if sep = "hr" then "\n\n<hr class=\"scene-break\" />\n\n"
  else if sep = "em" then "\n\n***\n\n"
  else "\n\n" ++ sep ++ "\n\n"

/-- compile_manuscript.py render_chapter_break. -/
def render_chapter_break (style : String) : String :=
  if style = "none" then "\n\n"
  else if style = "hr" then "\n\n<hr class=\"chapter-break\" />\n\n"
  else if style = "page" then "\n\n<!-- CHAPTER BREAK -->\n\n"
  else "\n\n"

/-- The scene loop of compile_manuscript at lines 349-361: bodies are the
scene texts after front-matter stripping and trimming; empty bodies are
skipped entirely, a separator precedes every non-first emitted body, and
each emitted body adds its word count. -/
def sceneAccum (sep : String) : List SceneC → Bool → List String × Nat
  | [], _ => ([], 0)
  | sc :: rest, first =>
    let body := pyStrip (strip_yaml_front_matter sc.text)
    if body = "" then sceneAccum sep rest first
    else
      let p := sceneAccum sep rest false
      ((if first then [] else [render_scene_separator sep]) ++
        (body ++ "\n\n") :: p.1,
       CompileManuscript.count_words body + p.2)

/-- The per-chapter block of compile_manuscript at lines 341-363: none
when the chapter has no scene files or collects no parts; otherwise the
joined heading and scene parts.  The second component is the word count
contribution. -/
def chapterBlockWords (heading_style sep : String) (ch : ChapterC) :
    Option String × Nat :=
  if ch.scenes = [] then (none, 0)
  else
    let heading := render_chapter_heading ch heading_style
    let p := sceneAccum sep ch.scenes true
    let bp := (if heading = "" then [] else [heading]) ++ p.1
    (if bp = [] then none else some (joinAll bp), p.2)

/-- Chapter blocks with a chapter break before every block after the
first (compile_manuscript.py lines 388-391). -/
def withBreaks (cb : String) : List String → List String
  | [] => []
  | b :: rest => b :: (rest.map (fun x => [render_chapter_break cb, x])).flatten

/-! ## Title page (compile_manuscript.py lines 401-488) -/

/-- The helper get_str of render_title_page: a stripped non-empty string
value, or none for missing keys, empty values and list values. -/
def get_str (meta : Meta) (key : String) : Option String :=
  match metaGet meta key with
  | some (MValue.str s) =>
    let t := pyStrip s
    if t = "" then none else some t
  | _ => none

/-- The helper get_list_or_str of render_title_page. -/
def get_list_or_str (meta : Meta) (key : String) : List String :=
  match metaGet meta key with
  | some (MValue.list xs) => (xs.map pyStrip).filter (fun s => s ≠ "")
  | some (MValue.str s) =>
    let t := pyStrip s
    if t = "" then [] else [t]
  | _ => []

/-- Optional value as a zero-or-one element list. -/
def optList : Option String → List String
  | some s => [s]
  | none => []

/-- The address lines of render_title_page (lines 432-451): the explicit
address field followed by lines synthesized from street, city/state/postal
and country. -/
def address_lines (meta : Meta) : List String :=
  let street := get_str meta "street"
  let city := get_str meta "city"
  let state := get_str meta "state"
  let postal := match get_str meta "postal_code" with
    | some p => some p
    | none => get_str meta "zip"
  let country := get_str meta "country"
  get_list_or_str meta "address" ++ optList street ++
    (match city with
     | some ct =>
       [ct ++ (match state with | some st => ", " ++ st | none => "") ++
         (match postal with | some p => " " ++ p | none => "")]
     | none => []) ++
    optList country

/-- The word-count string of render_title_page (lines 453-458): the
word_count or approx_word_count metadata value when it is a non-empty
scalar, else the computed total rounded to the nearest thousand and
comma-formatted. -/
def tp_word_count (meta : Meta) (manuscript_words : Nat) : String :=
  match get_str meta "word_count" with
  | some v => v
  | none =>
    match get_str meta "approx_word_count" with
    | some v => v
    | none => commaFormat (nearestThousand manuscript_words)

/-- The left contact block of render_title_page (lines 460-469). -/
def left_block (meta : Meta) (manuscript_words : Nat) : List String :=
  let wc := tp_word_count meta manuscript_words
  optList (get_str meta "author") ++ address_lines meta ++
    optList (get_str meta "phone") ++ optList (get_str meta "email") ++
    (if wc ≠ "" then ["Word Count: " ++ wc] else [])

/-- The centered title block of render_title_page (lines 472-478). -/
def title_block (meta : Meta) : List String :=
  (match get_str meta "title" with | some t => ["# " ++ t] | none => []) ++
    (match get_str meta "subtitle" with | some t => ["## " ++ t] | none => []) ++
    (match get_str meta "author" with | some a => ["by " ++ a] | none => [])

/-- compile_manuscript.py render_title_page: left block, title block, and
a mandatory hr-style break. -/
def render_title_page (meta : Meta) (manuscript_words : Nat) : String :=
  let lb := left_block meta manuscript_words
  let tb := title_block meta
  (if lb ≠ [] then pyStrip (joinNL lb) ++ "\n\n" else "") ++
    (if tb ≠ [] then pyStrip (joinNL tb) ++ "\n\n" else "") ++
    render_chapter_break "hr"

/-- The pure core of compile_manuscript.py compile_manuscript (lines
337-395): chapters are the collected snapshot, header_text is the content
of header_material.md when the file exists.  Returns the document written
to the output file. -/
def compile_manuscript_doc (chapters : List ChapterC) (header_text : Option String)
    (include_header title_page : Bool)
    (chapter_heading scene_sep chapter_break : String) : String :=
  let pairs := chapters.map (chapterBlockWords chapter_heading scene_sep)
  let chapter_blocks := pairs.filterMap Prod.fst
  let manuscript_words := (pairs.map Prod.snd).sum
  let parsedHeader := header_text.map parse_front_matter
  let header_meta : Option Meta := match parsedHeader with
    | some (some m, _) => some m
    | _ => none
  let header_body : Option String := match parsedHeader with
    | some (_, b) => some b
    | none => none
  let parts1 := match title_page, header_meta with
    | true, some m => [render_title_page m manuscript_words]
    | _, _ => []
  let parts2 := match include_header, header_body with
    | true, some hb =>
      if hb ≠ "" then
        (if pyRstrip hb ≠ "" then [pyRstrip hb ++ "\n\n"] else [])
      else []
    | _, _ => []
  let parts3 := withBreaks chapter_break chapter_blocks
  pyRstrip (joinAll (parts1 ++ parts2 ++ parts3)) ++ "\n"

/-! ## word_count.py parse_chapter_dir (lines 76-85): the first pattern is
a two-digit-dash prefix, the second tolerates Chapter-NN, and a fallback
searches for the first two consecutive digits anywhere in the name. -/

/-- re.search(r"(\d{2})", dirname): the leftmost pair of consecutive
digits. -/
def searchTwoDigits : List Char → Option Nat
  | a :: b :: rest =>
    if a.isDigit && b.isDigit then some (digitVal a * 10 + digitVal b)
    else searchTwoDigits (b :: rest)
  | _ => none

/-- The first CHAPTER_DIR_PATTERNS entry: a prefix match of two digits and
a dash. -/
def wc_pattern1 (l : List Char) : Option Nat :=
  match l with
  | d1 :: d2 :: sep :: _ =>
    if d1.isDigit && d2.isDigit && sep = '-' then
      some (digitVal d1 * 10 + digitVal d2)
    else none
  | _ => none

/-- The second CHAPTER_DIR_PATTERNS entry: Chapter-NN, case-insensitive,
anchored at both ends. -/
def wc_pattern2 (l : List Char) : Option Nat :=
  match stripFinalNL l with
  | [c1, c2, c3, c4, c5, c6, c7, h, d1, d2] =>
    if eqi c1 'C' && eqi c2 'h' && eqi c3 'a' && eqi c4 'p' && eqi c5 't' &&
        eqi c6 'e' && eqi c7 'r' && h = '-' && d1.isDigit && d2.isDigit then
      some (digitVal d1 * 10 + digitVal d2)
    else none
  | _ => none

/-- word_count.py parse_chapter_dir. -/
def wc_parse_chapter_dir (dirname : String) : Option Nat :=
  match wc_pattern1 dirname.data with
  | some n => some n
  | none =>
    match wc_pattern2 dirname.data with
    | some n => some n
    | none => searchTwoDigits dirname.data

/-- Spec-side shape of a chapter directory name, following the words of
the claim: a two-digit prefix, a separator, and a trailing title (the
title nonempty and on the single first line, one final newline tolerated
by the anchor). -/
def chapterShape (name : String) : Bool :=
  decide (2 < name.length) &&
    (name.data.take 2).all Char.isDigit &&
    decide (name.data[2]? = some '-') &&
    (let t := stripFinalNL (name.data.drop 3)
     !decide (t = []) && !t.contains '\n')

theorem chapTitle_isSome (rest : List Char) :
    (chapTitle rest).isSome
      = (!decide (stripFinalNL rest = []) && !(stripFinalNL rest).contains '\n') := by
  unfold chapTitle stripFinalNL
  by_cases h : rest.getLast? = some '\n'
  · simp only [h, if_true, if_pos]
    by_cases h2 : rest.dropLast = [] <;> by_cases h3 : '\n' ∈ rest.dropLast <;>
      simp [h2, h3, List.elem_eq_mem]
  · simp only [h, if_false, if_neg]
    by_cases h2 : rest = [] <;> by_cases h3 : '\n' ∈ rest <;> simp [h2, h3, List.elem_eq_mem]

/-- Counterexample for C7: word_count.py parse_chapter_dir recognizes
names that are not of the two-digit-prefix shape, through its Chapter-NN
pattern and its anywhere-two-digits fallback. -/
theorem chapter_matcher_counterexample :
    wc_parse_chapter_dir "Chapter-01" = some 1 ∧ chapterShape "Chapter-01" = false ∧
    wc_parse_chapter_dir "notes 45 final" = some 45 ∧
    chapterShape "notes 45 final" = false := by
  refine ⟨by decide, by decide, by decide, by decide⟩

/-- C7 amended: compile_manuscript.py parse_chapter_dir recognizes a
directory entry exactly when the name is a two-digit prefix, a dash and a
nonempty single-line title; word_count.py parse_chapter_dir is laxer (see
the counterexample). -/
theorem chapter_matcher_amended (name : String) :
    (parse_chapter_dir name true).isSome = chapterShape name := by
  have hlen : name.length = name.data.length := rfl
  unfold parse_chapter_dir chapterShape
  cases hdl : name.data with
  | nil => simp [hlen, hdl]
  | cons d1 t1 =>
    cases t1 with
    | nil => simp [hlen, hdl]
    | cons d2 t2 =>
      cases t2 with
      | nil => simp [hlen, hdl]
      | cons sep rest =>
        have hl2 : decide (2 < name.length) = true := by
          rw [hlen, hdl]
          simp
        simp only [Bool.not_true, Bool.false_eq_true, if_false, hl2, hdl,
          List.take, List.all_cons, List.all_nil, List.getElem?_cons_succ,
          List.getElem?_cons_zero, List.drop, Bool.true_and, Bool.and_true]
        by_cases h1 : (d1.isDigit && d2.isDigit && sep = '-') = true
        · rw [if_pos h1]
          have hmap : ((chapTitle rest).map
              (fun t => (digitVal d1 * 10 + digitVal d2, pyStrip ⟨t⟩))).isSome
              = (chapTitle rest).isSome := by
            cases hx : chapTitle rest <;> simp [hx]
          rw [hmap, chapTitle_isSome]
          have h1b := h1
          simp only [Bool.and_eq_true, decide_eq_true_eq] at h1b
          simp [h1b]
        · rw [if_neg h1]
          simp only [Bool.and_eq_true, decide_eq_true_eq, not_and] at h1
          simp only [Option.isSome_none, Bool.false_eq]
          by_cases ha : d1.isDigit = true <;> by_cases hb : d2.isDigit = true <;>
            by_cases hc : sep = '-' <;> simp_all

/-- Counterexample for C1: a chapter whose only scene strips to empty is
not omitted; with the default heading style its heading appears in the
output and a chapter break separates it from the next chapter. -/
theorem empty_chapter_heading_counterexample :
    hasSubstr (compile_manuscript_doc
      [⟨1, "Alpha", [⟨1, 1, "ch01-sc01.md", "---\nk: v\n---\n"⟩]⟩,
       ⟨2, "Beta", [⟨2, 1, "ch02-sc01.md", "Hello world.\n"⟩]⟩]
      none true true "title" "em" "hr") "# Chapter 01: Alpha" = true ∧
    hasSubstr (compile_manuscript_doc
      [⟨1, "Alpha", [⟨1, 1, "ch01-sc01.md", "---\nk: v\n---\n"⟩]⟩,
       ⟨2, "Beta", [⟨2, 1, "ch02-sc01.md", "Hello world.\n"⟩]⟩]
      none true true "title" "em" "hr") "<hr class=\"chapter-break\" />" = true := by
  refine ⟨by decide, by decide⟩

/-- C1 amended: a chapter with scene files that all render empty
contributes a heading-only block (and zero words); it is omitted entirely
only when the heading style renders no heading. -/
theorem empty_chapter_block_amended (hs ss : String) (ch : ChapterC)
    (h1 : ch.scenes ≠ [])
    (h2 : ∀ sc ∈ ch.scenes, pyStrip (strip_yaml_front_matter sc.text) = "") :
    chapterBlockWords hs ss ch =
      (if render_chapter_heading ch hs = "" then none
       else some (render_chapter_heading ch hs), 0) := by
  have hacc : ∀ (scs : List SceneC) (first : Bool),
      (∀ sc ∈ scs, pyStrip (strip_yaml_front_matter sc.text) = "") →
      sceneAccum ss scs first = ([], 0) := by
    intro scs
    induction scs with
    | nil => intro first _; rfl
    | cons sc rest ih =>
      intro first h
      have hsc := h sc (by simp)
      simp only [sceneAccum, hsc, if_pos]
      exact ih first (fun x hx => h x (by simp [hx]))
  unfold chapterBlockWords
  rw [if_neg h1]
  rw [hacc ch.scenes true h2]
  by_cases hh : render_chapter_heading ch hs = ""
  · simp [hh]
  · simp [hh, joinAll]

/-- Witness for the amended C1 at a concrete all-empty chapter. -/
theorem empty_chapter_block_amended_witness :
    chapterBlockWords "title" "em"
      ⟨1, "Alpha", [⟨1, 1, "ch01-sc01.md", "---\nk: v\n---\n"⟩]⟩ =
      (if render_chapter_heading
          ⟨1, "Alpha", [⟨1, 1, "ch01-sc01.md", "---\nk: v\n---\n"⟩]⟩ "title" = "" then none
       else some (render_chapter_heading
          ⟨1, "Alpha", [⟨1, 1, "ch01-sc01.md", "---\nk: v\n---\n"⟩]⟩ "title"), 0) :=
  empty_chapter_block_amended "title" "em" _ (by decide) (by decide)

/-- Counterexample for C2: scene files carrying scene numbers 01 and 02
but different embedded chapter numbers sort by the chapter number from
the filename, so the scene-02 content lands before the scene-01 content. -/
theorem scene_order_counterexample :
    placedBefore (compile_manuscript_doc
      (collect_structure [⟨"01-A", true, [("ch02-sc01.md", "S1"), ("ch01-sc02.md", "S2")]⟩])
      none true true "title" "em" "hr") "S1" "S2" = false ∧
    placedBefore (compile_manuscript_doc
      (collect_structure [⟨"01-A", true, [("ch02-sc01.md", "S1"), ("ch01-sc02.md", "S2")]⟩])
      none true true "title" "em" "hr") "S2" "S1" = true := by
  refine ⟨by decide, by decide⟩

theorem sceneAccum_congr (ss : String) : ∀ (s1 s2 : List SceneC),
    s1.map SceneC.text = s2.map SceneC.text →
    ∀ first, sceneAccum ss s1 first = sceneAccum ss s2 first := by
  intro s1
  induction s1 with
  | nil =>
    intro s2 h first
    cases s2 with
    | nil => rfl
    | cons b t2 => simp at h
  | cons a t ih =>
    intro s2 h first
    cases s2 with
    | nil => simp at h
    | cons b t2 =>
      simp only [List.map_cons, List.cons.injEq] at h
      simp only [sceneAccum, h.1, ih t2 h.2]

/-- C2 amended: for scene files whose names carry the same embedded
chapter number and scene numbers 01 and 02, the assembled document places
the scene-01 content before the scene-02 content in both listing orders. -/
theorem scene_order_amended (n1 n2 : String) (c : Nat)
    (h1 : parse_scene_file n1 = some (c, 1))
    (h2 : parse_scene_file n2 = some (c, 2))
    (hm1 : strEndsWith n1 ".md" = true)
    (hm2 : strEndsWith n2 ".md" = true) :
    placedBefore (compile_manuscript_doc
      (collect_structure [⟨"01-A", true, [(n1, "S1"), (n2, "S2")]⟩])
      none true true "title" "em" "hr") "S1" "S2" = true ∧
    placedBefore (compile_manuscript_doc
      (collect_structure [⟨"01-A", true, [(n2, "S2"), (n1, "S1")]⟩])
      none true true "title" "em" "hr") "S1" "S2" = true := by
  have hpc : parse_chapter_dir "01-A" true = some (1, "A") := by decide
  have hlt : sceneKeyLt ⟨c, 1, n1, "S1"⟩ ⟨c, 2, n2, "S2"⟩ = true := by
    simp [sceneKeyLt]
  have hnlt : sceneKeyLt ⟨c, 2, n2, "S2"⟩ ⟨c, 1, n1, "S1"⟩ = false := by
    simp [sceneKeyLt]
  have hc1 : collect_structure [⟨"01-A", true, [(n1, "S1"), (n2, "S2")]⟩]
      = [⟨1, "A", [⟨c, 1, n1, "S1"⟩, ⟨c, 2, n2, "S2"⟩]⟩] := by
    unfold collect_structure
    simp [List.filterMap_cons, List.filter_cons, hpc, hm1, hm2, h1, h2,
      insSortLt, insertLt, hlt, hnlt]
    exact ⟨by decide, by decide⟩
  have hc2 : collect_structure [⟨"01-A", true, [(n2, "S2"), (n1, "S1")]⟩]
      = [⟨1, "A", [⟨c, 1, n1, "S1"⟩, ⟨c, 2, n2, "S2"⟩]⟩] := by
    unfold collect_structure
    simp [List.filterMap_cons, List.filter_cons, hpc, hm1, hm2, h1, h2,
      insSortLt, insertLt, hlt, hnlt]
    exact ⟨by decide, by decide⟩
  have hcb : chapterBlockWords "title" "em" ⟨1, "A", [⟨c, 1, n1, "S1"⟩, ⟨c, 2, n2, "S2"⟩]⟩
      = chapterBlockWords "title" "em" ⟨1, "A", [⟨1, 1, "a", "S1"⟩, ⟨1, 2, "b", "S2"⟩]⟩ := by
    unfold chapterBlockWords
    rw [if_neg (by simp), if_neg (by simp)]
    rw [sceneAccum_congr "em" [⟨c, 1, n1, "S1"⟩, ⟨c, 2, n2, "S2"⟩]
      [⟨1, 1, "a", "S1"⟩, ⟨1, 2, "b", "S2"⟩] rfl true]
    rfl
  have hdoc : compile_manuscript_doc [⟨1, "A", [⟨c, 1, n1, "S1"⟩, ⟨c, 2, n2, "S2"⟩]⟩]
      none true true "title" "em" "hr" = "# Chapter 01: A\n\nS1\n\n\n\n***\n\nS2\n" := by
    unfold compile_manuscript_doc
    simp only [List.map_cons, List.map_nil, hcb]
    decide
  rw [hc1, hc2, hdoc]
  refine ⟨by decide, by decide⟩

/-- Witness for the amended C2 at concrete file names. -/
theorem scene_order_amended_witness :
    placedBefore (compile_manuscript_doc
      (collect_structure [⟨"01-A", true, [("ch07-sc01.md", "S1"), ("ch07-sc02.md", "S2")]⟩])
      none true true "title" "em" "hr") "S1" "S2" = true ∧
    placedBefore (compile_manuscript_doc
      (collect_structure [⟨"01-A", true, [("ch07-sc02.md", "S2"), ("ch07-sc01.md", "S1")]⟩])
      none true true "title" "em" "hr") "S1" "S2" = true :=
  scene_order_amended "ch07-sc01.md" "ch07-sc02.md" 7 (by decide) (by decide)
    (by decide) (by decide)

theorem rstripP_getLast (p : Char → Bool) (l : List Char) (c : Char)
    (h : (rstripP p l).getLast? = some c) : p c = false := by
  unfold rstripP at h
  rw [List.getLast?_reverse] at h
  cases hd : l.reverse.dropWhile p with
  | nil => rw [hd] at h; simp at h
  | cons x t =>
    rw [hd] at h
    simp only [List.head?_cons, Option.some.injEq] at h
    rw [← h]
    exact dropWhile_head_false hd

theorem pyStrip_getLast (s : String) (c : Char)
    (h : (pyStrip s).data.getLast? = some c) : pyWs c = false :=
  rstripP_getLast pyWs _ c h

theorem get_str_props (m : Meta) (k : String) (v : String) (h : get_str m k = some v) :
    v ≠ "" ∧ ∀ c, v.data.getLast? = some c → pyWs c = false := by
  unfold get_str at h
  split at h
  · rename_i s heq
    have h2 : (if pyStrip s = "" then none else some (pyStrip s)) = some v := h
    split at h2
    · exact absurd h2 (by simp)
    · rename_i hne
      cases h2
      refine ⟨hne, ?_⟩
      intro c hc
      exact pyStrip_getLast s c hc
  · exact absurd h (by simp)

theorem pyWs_digitChar (k : Nat) (h : k < 10) : pyWs (Char.ofNat (48 + k)) = false := by
  interval_cases k <;> decide

theorem natToStr_last (n : Nat) :
    ∃ c, (natToStr n).data.getLast? = some c ∧ pyWs c = false := by
  unfold natToStr
  show ∃ c, (natDigitsAux (n + 1) n).getLast? = some c ∧ pyWs c = false
  unfold natDigitsAux
  by_cases h : n < 10
  · exact ⟨Char.ofNat (48 + n), by rw [if_pos h]; rfl, pyWs_digitChar n h⟩
  · refine ⟨Char.ofNat (48 + n % 10), ?_, pyWs_digitChar (n % 10) (Nat.mod_lt _ (by omega))⟩
    rw [if_neg h]
    exact List.getLast?_concat _

theorem group3_headq (l : List Char) : (group3 l).head? = l.head? := by
  rw [group3.eq_def]
  split <;> rfl

theorem commaFormat_last (n : Nat) :
    commaFormat n ≠ "" ∧ ∀ c, (commaFormat n).data.getLast? = some c → pyWs c = false := by
  obtain ⟨c, hc, hw⟩ := natToStr_last n
  have hdata : (commaFormat n).data.getLast? = some c := by
    show ((group3 (natToStr n).data.reverse).reverse).getLast? = some c
    rw [List.getLast?_reverse, group3_headq, List.head?_reverse]
    exact hc
  constructor
  · intro he
    have : (commaFormat n).data = [] := by rw [he]
    rw [this] at hdata
    simp at hdata
  · intro c2 hc2
    rw [hdata] at hc2
    cases hc2
    exact hw

theorem tp_word_count_props (m : Meta) (w : Nat) :
    tp_word_count m w ≠ "" ∧
      ∀ c, (tp_word_count m w).data.getLast? = some c → pyWs c = false := by
  unfold tp_word_count
  cases h1 : get_str m "word_count" with
  | some v =>
    obtain ⟨hne, hl⟩ := get_str_props m "word_count" v h1
    exact ⟨hne, hl⟩
  | none =>
    cases h2 : get_str m "approx_word_count" with
    | some v =>
      obtain ⟨hne, hl⟩ := get_str_props m "approx_word_count" v h2
      exact ⟨hne, hl⟩
    | none => exact commaFormat_last (nearestThousand w)

theorem str_data_ne (v : String) (h : v ≠ "") : v.data ≠ [] := by
  intro hd
  apply h
  cases v with
  | mk d => cases hd; rfl

theorem dropWhile_keep {pred : Char → Bool} (l : List Char) (c : Char)
    (h1 : l.head? = some c) (h2 : pred c = false) : l.dropWhile pred = l := by
  cases l with
  | nil => simp at h1
  | cons x t =>
    simp only [List.head?_cons, Option.some.injEq] at h1
    subst h1
    rw [List.dropWhile_cons, if_neg (by simp [h2])]

theorem pyStripL_keep_suffix (a p : List Char) (hp : p ≠ [])
    (hhead : ∀ c, p.head? = some c → pyWs c = false)
    (hlast : ∀ c, p.getLast? = some c → pyWs c = false) :
    ∃ a2, pyStripL (a ++ p) = a2 ++ p := by
  obtain ⟨ch, hch⟩ : ∃ ch, p.head? = some ch := by
    cases p with
    | nil => exact absurd rfl hp
    | cons x t => exact ⟨x, rfl⟩
  obtain ⟨cl, hcl⟩ : ∃ cl, p.getLast? = some cl := by
    cases hg : p.getLast? with
    | none => exact absurd (List.getLast?_eq_none_iff.mp hg) hp
    | some x => exact ⟨x, rfl⟩
  have hdw : p.dropWhile pyWs = p := dropWhile_keep p ch hch (hhead ch hch)
  have hrev : p.reverse.dropWhile pyWs = p.reverse := by
    apply dropWhile_keep p.reverse cl
    · rw [List.head?_reverse]
      exact hcl
    · exact hlast cl hcl
  have hstrip_p : rstripP pyWs p = p := by
    unfold rstripP
    rw [hrev, List.reverse_reverse]
  have hrevne : p.reverse.dropWhile pyWs ≠ [] := by
    rw [hrev]
    simpa using hp
  rw [pyStripL, List.dropWhile_append]
  split
  · rw [hdw]
    exact ⟨[], by rw [hstrip_p]; rfl⟩
  · refine ⟨a.dropWhile pyWs, ?_⟩
    rw [rstripP_concat _ _ _ hrevne, hstrip_p]

theorem joinNL_concat_suffix : ∀ (pre : List String) (x : String),
    ∃ a, (joinNL (pre ++ [x])).data = a ++ x.data := by
  intro pre
  induction pre with
  | nil => intro x; exact ⟨[], rfl⟩
  | cons h t ih =>
    intro x
    obtain ⟨a, ha⟩ := ih x
    have heq : joinNL ((h :: t) ++ [x]) = h ++ "\n" ++ joinNL (t ++ [x]) := by
      cases t with
      | nil => rfl
      | cons y t2 => rfl
    refine ⟨h.data ++ "\n".data ++ a, ?_⟩
    rw [heq, data_append, data_append, ha]
    simp [List.append_assoc]

theorem strFindL_append (pat : List Char) : ∀ (a b : List Char),
    (strFindL pat (a ++ pat ++ b)).isSome = true := by
  intro a
  induction a with
  | nil =>
    intro b
    rw [List.nil_append]
    cases hp : pat with
    | nil =>
      cases b with
      | nil => rfl
      | cons c rest => simp [strFindL]
    | cons p1 pt =>
      rw [List.cons_append]
      unfold strFindL
      rw [if_pos (by
        rw [← List.cons_append, ← hp, List.isPrefixOf_iff_prefix]
        exact List.prefix_append pat b)]
      rfl
  | cons c a2 ih =>
    intro b
    rw [show (c :: a2) ++ pat ++ b = c :: (a2 ++ pat ++ b) from rfl]
    unfold strFindL
    by_cases hpre : pat.isPrefixOf (c :: (a2 ++ pat ++ b)) = true
    · rw [if_pos hpre]
      rfl
    · rw [if_neg hpre]
      have h2 := ih b
      cases hfind : strFindL pat (a2 ++ pat ++ b) with
      | none => rw [hfind] at h2; simp at h2
      | some k => rfl

theorem hasSubstr_of_append (s p : String) (a b : List Char)
    (h : s.data = a ++ p.data ++ b) : hasSubstr s p = true := by
  unfold hasSubstr strFind
  rw [h]
  exact strFindL_append p.data a b

theorem wc_line_substr_core (m : Meta) (w : Nat) :
    hasSubstr (render_title_page m w) ("Word Count: " ++ tp_word_count m w) = true := by
  obtain ⟨hne, hlast⟩ := tp_word_count_props m w
  have hlpne : ("Word Count: " ++ tp_word_count m w) ≠ "" := by
    intro he
    have h2 := congrArg String.data he
    rw [data_append] at h2
    simp at h2
  have hlbeq : left_block m w =
      (optList (get_str m "author") ++ address_lines m ++ optList (get_str m "phone") ++
        optList (get_str m "email")) ++ ["Word Count: " ++ tp_word_count m w] := by
    unfold left_block
    show optList (get_str m "author") ++ address_lines m ++ optList (get_str m "phone") ++
        optList (get_str m "email") ++
        (if tp_word_count m w ≠ "" then ["Word Count: " ++ tp_word_count m w] else []) = _
    rw [if_pos hne]
  have hlbne : left_block m w ≠ [] := by
    rw [hlbeq]
    simp
  obtain ⟨a1, ha1⟩ := joinNL_concat_suffix
    (optList (get_str m "author") ++ address_lines m ++ optList (get_str m "phone") ++
      optList (get_str m "email")) ("Word Count: " ++ tp_word_count m w)
  have hhead : ∀ c, ("Word Count: " ++ tp_word_count m w).data.head? = some c →
      pyWs c = false := by
    intro c hc
    rw [data_append] at hc
    have h2 : ("Word Count: ".data ++ (tp_word_count m w).data).head? = some 'W' := rfl
    rw [h2] at hc
    cases hc
    decide
  have hlineLast : ∀ c, ("Word Count: " ++ tp_word_count m w).data.getLast? = some c →
      pyWs c = false := by
    intro c hc
    rw [data_append, List.getLast?_append_of_ne_nil _ (str_data_ne _ hne)] at hc
    exact hlast c hc
  obtain ⟨a2, ha2⟩ := pyStripL_keep_suffix a1 ("Word Count: " ++ tp_word_count m w).data
    (str_data_ne _ hlpne) hhead hlineLast
  have hmid : (pyStrip (joinNL (left_block m w))).data
      = a2 ++ ("Word Count: " ++ tp_word_count m w).data := by
    show pyStripL ((joinNL (left_block m w)).data) = _
    rw [hlbeq, ha1]
    exact ha2
  have hrend : (render_title_page m w).data
      = (pyStrip (joinNL (left_block m w))).data ++ ("\n\n".data ++
        ((if title_block m ≠ [] then pyStrip (joinNL (title_block m)) ++ "\n\n" else "") ++
          render_chapter_break "hr").data) := by
    unfold render_title_page
    show (((if left_block m w ≠ [] then pyStrip (joinNL (left_block m w)) ++ "\n\n" else "") ++
        (if title_block m ≠ [] then pyStrip (joinNL (title_block m)) ++ "\n\n" else "")) ++
        render_chapter_break "hr").data = _
    rw [if_pos hlbne]
    simp [data_append, List.append_assoc]
  have hfinal : (render_title_page m w).data
      = a2 ++ ("Word Count: " ++ tp_word_count m w).data ++ ("\n\n".data ++
        ((if title_block m ≠ [] then pyStrip (joinNL (title_block m)) ++ "\n\n" else "") ++
          render_chapter_break "hr").data) := by
    rw [hrend, hmid]
  exact hasSubstr_of_append _ _ _ _ hfinal

/-- C8: the rendered title page contains a Word Count line whose value is
the word_count metadata value (or else approx_word_count) whenever that
value is a non-empty scalar, and otherwise the accumulated total rounded
to the nearest thousand with thousands separators. -/
theorem title_page_word_count_value (m : Meta) (w : Nat) :
    hasSubstr (render_title_page m w)
      ("Word Count: " ++
        (match get_str m "word_count" with
         | some v => v
         | none =>
           match get_str m "approx_word_count" with
           | some v => v
           | none => commaFormat (nearestThousand w))) = true :=
  wc_line_substr_core m w

/-- C10: for every metadata mapping and computed total the left contact
block is non-empty and the rendered title page contains the Word Count
line; the computed fallback string is never empty, so the line and the
block are never omitted. -/
theorem title_page_word_count_line (m : Meta) (w : Nat) :
    left_block m w ≠ [] ∧ tp_word_count m w ≠ "" ∧
      hasSubstr (render_title_page m w) ("Word Count: " ++ tp_word_count m w) = true := by
  refine ⟨?_, (tp_word_count_props m w).1, wc_line_substr_core m w⟩
  unfold left_block
  show optList (get_str m "author") ++ address_lines m ++ optList (get_str m "phone") ++
      optList (get_str m "email") ++
      (if tp_word_count m w ≠ "" then ["Word Count: " ++ tp_word_count m w] else []) ≠ []
  rw [if_pos (tp_word_count_props m w).1]
  simp
